import Mathlib

/-!
Verification of the SHA-1 length-extension forgery module
(`src/crypto/hash_vegas/sha1_extend.py`).

Bytes are modelled as `List Nat` (each entry a byte value), hex strings as
`List Char`, chaining states as 5-tuples of `Nat` with 32-bit values kept
reduced by explicit `% 4294967296`.  Python code that raises an exception is
modelled with `Option`.
-/

set_option maxRecDepth 4000
set_option linter.unusedVariables false

/-- `_left_rotate` from the source: mask `n` to 32 bits, then
`((n << b) | (n >> (32 - b))) & 0xffffffff`.  The `& 0xffffffff` masks are
written as `% 4294967296` (equal on non-negative integers). -/
def _left_rotate (n b : Nat) : Nat :=
  let m := n % 4294967296
  ((m <<< b) ||| (m >>> (32 - b))) % 4294967296

/-- Big-endian serialization of one 32-bit word, as `struct.pack` with
format `>I` produces for values below `2 ^ 32` (it raises on larger values,
which the theorems exclude). -/
def pack_u32 (x : Nat) : List Nat :=
  [x / 16777216 % 256, x / 65536 % 256, x / 256 % 256, x % 256]

/-- Big-endian serialization of one 64-bit word, as `struct.pack` with
format `>Q` produces for values below `2 ^ 64` (it raises on larger values,
which the theorems exclude). -/
def pack_u64 (x : Nat) : List Nat :=
  [x / 72057594037927936 % 256, x / 281474976710656 % 256,
   x / 1099511627776 % 256, x / 4294967296 % 256,
   x / 16777216 % 256, x / 65536 % 256, x / 256 % 256, x % 256]

/-- Serialization of a 5-word chaining state by `struct.pack` with format
`>5I` (source line 75). -/
def pack5 (st : Nat × Nat × Nat × Nat × Nat) : List Nat :=
  pack_u32 st.1 ++ pack_u32 st.2.1 ++ pack_u32 st.2.2.1 ++
    pack_u32 st.2.2.2.1 ++ pack_u32 st.2.2.2.2

/-- Big-endian interpretation of a byte sequence as a natural number. -/
def from_be (bs : List Nat) : Nat :=
  bs.foldl (fun a b => 256 * a + b) 0

/-- Lowercase hex character for a digit value below 16, as produced by
Python's `bytes.hex()`. -/
def hexChar (n : Nat) : Char :=
  if n < 10 then Char.ofNat (48 + n) else Char.ofNat (87 + n)

/-- Characters accepted by Python's `int(s, 16)` as hexadecimal digits:
`0`-`9`, `a`-`f`, `A`-`F`. -/
def is_hex_digit (c : Char) : Prop :=
  (48 ≤ c.toNat ∧ c.toNat ≤ 57) ∨ (97 ≤ c.toNat ∧ c.toNat ≤ 102) ∨
    (65 ≤ c.toNat ∧ c.toNat ≤ 70)

instance (c : Char) : Decidable (is_hex_digit c) := by
  unfold is_hex_digit; infer_instance

/-- Value of a hexadecimal digit character. -/
def hex_digit_val (c : Char) : Nat :=
  if c.toNat ≤ 57 then c.toNat - 48
  else if c.toNat ≤ 70 then c.toNat - 55
  else c.toNat - 87

/-- Python's `int(s, 16)` on a string of plain hexadecimal digits: the empty
string and strings holding a non-hex-digit character raise `ValueError`
(modelled as `none`).  Python's additional tolerance for sign characters,
whitespace, underscores and a `0x` prefix is not modelled; no input in this
development uses those forms. -/
def int_hex (s : List Char) : Option Nat :=
  if s ≠ [] ∧ ∀ c ∈ s, is_hex_digit c then
    some (s.foldl (fun a c => 16 * a + hex_digit_val c) 0)
  else none

/-- Python's `bytes.hex()`: two lowercase hex characters per byte. -/
def bytesToHexChars (bs : List Nat) : List Char :=
  bs.flatMap (fun b => [hexChar (b / 16), hexChar (b % 16)])

/-- `sha1_padding` from the source (lines 25-30):
`b'\x80' + b'\x00' * ((56 - (msg_len + 1) % 64) % 64) + struct.pack('>Q', msg_len * 8)`.
Python's `%` on the possibly negative `56 - r` is rendered by adding 64 to
keep the left operand non-negative: `(120 - r) % 64 = (56 - r) mod 64`. -/
def sha1_padding (msg_len : Nat) : List Nat :=
  128 :: (List.replicate ((120 - (msg_len + 1) % 64) % 64) 0 ++ pack_u64 (msg_len * 8))

/-- Word `j` of `struct.unpack('>16I', block)`: four consecutive bytes read
big-endian. -/
def unpack_u32 (bs : List Nat) (j : Nat) : Nat :=
  bs.getD (4 * j) 0 * 16777216 + bs.getD (4 * j + 1) 0 * 65536 +
    bs.getD (4 * j + 2) 0 * 256 + bs.getD (4 * j + 3) 0

/-- `w = list(struct.unpack('>16I', block)) + [0] * 64` (source line 87). -/
def sha1_initial_w (block : List Nat) : List Nat :=
  (List.range 16).map (unpack_u32 block) ++ List.replicate 64 0

/-- The schedule-expansion loop `for i in range(16, 80): w[i] = ...`
(source lines 88-89), with the remaining trip count as a structural fuel
argument; the loop body writes index `i` from indices `i-3`, `i-8`, `i-14`,
`i-16`. -/
def sha1_expand_from (w : List Nat) (i : Nat) : Nat → List Nat
  | 0 => w
  | fuel + 1 =>
      sha1_expand_from
        (w.set i (_left_rotate
          (w.getD (i - 3) 0 ^^^ w.getD (i - 8) 0 ^^^ w.getD (i - 14) 0 ^^^ w.getD (i - 16) 0) 1))
        (i + 1) fuel

/-- The 80-round loop `for i in range(80): ...` (source lines 91-109), with
the remaining trip count as a structural fuel argument.  Each round computes
`temp = (rotl(a,5) + f + e + k + w[i]) & 0xffffffff` and shifts the working
registers `(a,b,c,d,e) := (temp, a, rotl(b,30), c, d)`. -/
def sha1_round_from (w : List Nat) (a b c d e i : Nat) : Nat → Nat × Nat × Nat × Nat × Nat
  | 0 => (a, b, c, d, e)
  | fuel + 1 =>
      let f :=
        if i < 20 then (b &&& c) ||| (d ^^^ (d &&& b))
        else if i < 40 then b ^^^ c ^^^ d
        else if i < 60 then (b &&& c) ||| (b &&& d) ||| (c &&& d)
        else b ^^^ c ^^^ d
      let k :=
        if i < 20 then 0x5A827999
        else if i < 40 then 0x6ED9EBA1
        else if i < 60 then 0x8F1BBCDC
        else 0xCA62C1D6
      let temp := (_left_rotate a 5 + f + e + k + w.getD i 0) % 4294967296
      sha1_round_from w temp a (_left_rotate b 30) c d (i + 1) fuel

/-- Body of `sha1_process_block` (source lines 86-115) on a 64-byte block:
expand the schedule, run the 80 rounds, and add the final registers into the
input state modulo `2 ^ 32`.  Python's `(~b) & d` on the non-negative `d` is
rendered as `d ^^^ (d &&& b)`, which agrees bit for bit. -/
def sha1_block_core (block : List Nat) (h0 h1 h2 h3 h4 : Nat) : Nat × Nat × Nat × Nat × Nat :=
  let w := sha1_expand_from (sha1_initial_w block) 16 64
  let r := sha1_round_from w h0 h1 h2 h3 h4 0 80
  ((h0 + r.1) % 4294967296, (h1 + r.2.1) % 4294967296, (h2 + r.2.2.1) % 4294967296,
   (h3 + r.2.2.2.1) % 4294967296, (h4 + r.2.2.2.2) % 4294967296)

/-- `sha1_process_block` with the length contract made explicit:
`struct.unpack('>16I', block)` raises `struct.error` (modelled as `none`)
unless `block` is exactly 64 bytes. -/
def sha1_process_block (block : List Nat) (h0 h1 h2 h3 h4 : Nat) :
    Option (Nat × Nat × Nat × Nat × Nat) :=
  if block.length = 64 then some (sha1_block_core block h0 h1 h2 h3 h4) else none

/-- Fuel-indexed splitting of a byte sequence into consecutive 64-byte
blocks, modelling the loop `for i in range(0, len(padded_data), 64)` with
its `if len(block) < 64: break` guard (source lines 70-73): any trailing
fragment shorter than 64 bytes is dropped. -/
def chunks64_go : Nat → List Nat → List (List Nat)
  | 0, _ => []
  | fuel + 1, l => if 64 ≤ l.length then l.take 64 :: chunks64_go fuel (l.drop 64) else []

/-- The 64-byte blocks actually processed by the block loop of
`sha1_extend_hash`; a trailing fragment shorter than 64 bytes is dropped. -/
def chunks64 (l : List Nat) : List (List Nat) :=
  chunks64_go l.length l

/-- Folding the compression function over a list of blocks, threading the
5-word chaining state. -/
def sha1_fold_blocks (st : Nat × Nat × Nat × Nat × Nat) (blocks : List (List Nat)) :
    Nat × Nat × Nat × Nat × Nat :=
  blocks.foldl (fun s b => sha1_block_core b s.1 s.2.1 s.2.2.1 s.2.2.2.1 s.2.2.2.2) st

/-- The state-extraction step of `sha1_extend` (source line 48):
`[int(original_hash_hex[i:i + 8], 16) for i in range(0, 40, 8)]`.
Each slice `s[i:i+8]` is `(s.drop i).take 8`; a failing `int` conversion
raises `ValueError` (modelled as `none`). -/
def parse_state (s : List Char) : Option (Nat × Nat × Nat × Nat × Nat) :=
  match int_hex ((s.drop 0).take 8), int_hex ((s.drop 8).take 8),
      int_hex ((s.drop 16).take 8), int_hex ((s.drop 24).take 8),
      int_hex ((s.drop 32).take 8) with
  | some a, some b, some c, some d, some e => some (a, b, c, d, e)
  | _, _, _, _, _ => none

/-- `sha1_extend_hash` from the source (lines 66-75): pad `data` for the
total length `previous_length + len(data)`, process the full 64-byte blocks
(the loop breaks on a shorter trailing fragment), and serialize the final
state with `struct.pack('>5I', ...)`. -/
def sha1_extend_hash (initial_state : Nat × Nat × Nat × Nat × Nat) (data : List Nat)
    (previous_length : Nat) : List Nat :=
  let total_length := previous_length + data.length
  let padded_data := data ++ sha1_padding total_length
  pack5 (sha1_fold_blocks initial_state (chunks64 padded_data))

/-- `sha1_extend` from the source (lines 47-53): parse the original digest
into a chaining state, reconstruct the padding of the original message,
build the forged suffix, and resume hashing from the extracted state.
Returns `none` when the digest parse raises. -/
def sha1_extend (original_hash_hex : List Char) (original_data append_data : List Nat)
    (secret_length : Nat) : Option (List Char × List Nat) :=
  match parse_state original_hash_hex with
  | none => none
  | some h =>
      let original_msg_len := secret_length + original_data.length
      let padding := sha1_padding original_msg_len
      let new_data := original_data ++ padding ++ append_data
      let new_hash := sha1_extend_hash h append_data (original_msg_len + padding.length)
      some (bytesToHexChars new_hash, new_data)

/-- Standard SHA-1 initial chaining state. -/
def sha1_IV : Nat × Nat × Nat × Nat × Nat :=
  (0x67452301, 0xEFCDAB89, 0x98BADCFE, 0x10325476, 0xC3D2E1F0)

/-- Modelled from the spec: the DigestEngine (spec section 4.3), which the
repository delegates to `hashlib.sha1`; it is not present under `src/`.
Compute `padding = pad(len(message))`, fold `compress` over
`message ++ padding` split into consecutive 64-byte blocks from the fixed
standard initial chaining state, and serialize the final state. -/
def sha1_digest (message : List Nat) : List Nat :=
  pack5 (sha1_fold_blocks sha1_IV (chunks64 (message ++ sha1_padding message.length)))

/-! ### Padding arithmetic -/

theorem sha1_padding_length (L : Nat) :
    (sha1_padding L).length = 9 + (120 - (L + 1) % 64) % 64 := by
  simp [sha1_padding, pack_u64]
  omega

theorem sha1_padding_length_mod (L : Nat) : (L + (sha1_padding L).length) % 64 = 0 := by
  rw [sha1_padding_length]
  omega

theorem sha1_padding_length_ge (L : Nat) : 9 ≤ (sha1_padding L).length := by
  rw [sha1_padding_length]
  omega

theorem sha1_padding_length_le (L : Nat) : (sha1_padding L).length ≤ 72 := by
  rw [sha1_padding_length]
  omega

/-! ### Block splitting -/

theorem chunks64_go_congr : ∀ f1 f2 l, l.length ≤ f1 → l.length ≤ f2 →
    chunks64_go f1 l = chunks64_go f2 l := by
  intro f1
  induction f1 with
  | zero =>
      intro f2 l h1 _
      have hl : l = [] := List.eq_nil_of_length_eq_zero (by omega)
      subst hl
      cases f2 <;> simp [chunks64_go]
  | succ f ih =>
      intro f2 l h1 h2
      cases f2 with
      | zero =>
          have hl : l = [] := List.eq_nil_of_length_eq_zero (by omega)
          subst hl
          simp [chunks64_go]
      | succ f2 =>
          simp only [chunks64_go]
          by_cases h64 : 64 ≤ l.length
          · simp only [if_pos h64]
            rw [ih f2 (l.drop 64) (by rw [List.length_drop]; omega)
              (by rw [List.length_drop]; omega)]
          · simp [if_neg h64]

theorem chunks64_step (l : List Nat) :
    chunks64 l = if 64 ≤ l.length then l.take 64 :: chunks64 (l.drop 64) else [] := by
  unfold chunks64
  by_cases h64 : 64 ≤ l.length
  · rw [if_pos h64]
    obtain ⟨m, hm⟩ : ∃ m, l.length = m + 1 := ⟨l.length - 1, by omega⟩
    rw [hm]
    simp only [chunks64_go]
    rw [if_pos h64]
    congr 1
    exact chunks64_go_congr m (l.drop 64).length (l.drop 64)
      (by rw [List.length_drop]; omega) le_rfl
  · rw [if_neg h64]
    cases hl : l.length with
    | zero => rfl
    | succ m =>
        simp only [chunks64_go]
        rw [if_neg h64]

theorem chunks64_mem_length : ∀ n (l : List Nat), l.length ≤ n →
    ∀ c ∈ chunks64 l, c.length = 64 := by
  intro n
  induction n with
  | zero =>
      intro l h c hc
      have hl : l = [] := List.eq_nil_of_length_eq_zero (by omega)
      subst hl
      simp [chunks64, chunks64_go] at hc
  | succ n ih =>
      intro l h c hc
      rw [chunks64_step] at hc
      by_cases h64 : 64 ≤ l.length
      · rw [if_pos h64] at hc
        rcases List.mem_cons.mp hc with h1 | h2
        · subst h1
          rw [List.length_take]
          omega
        · exact ih (l.drop 64) (by rw [List.length_drop]; omega) c h2
      · simp [if_neg h64] at hc

theorem chunks64_append : ∀ n (X Y : List Nat), X.length ≤ n → X.length % 64 = 0 →
    chunks64 (X ++ Y) = chunks64 X ++ chunks64 Y := by
  intro n
  induction n with
  | zero =>
      intro X Y h _
      have hX : X = [] := List.eq_nil_of_length_eq_zero (by omega)
      subst hX
      rw [List.nil_append, show chunks64 ([] : List Nat) = [] from rfl, List.nil_append]
  | succ n ih =>
      intro X Y h hmod
      by_cases hX0 : X.length = 0
      · have hX : X = [] := List.eq_nil_of_length_eq_zero hX0
        subst hX
        rw [List.nil_append, show chunks64 ([] : List Nat) = [] from rfl, List.nil_append]
      · have h64 : 64 ≤ X.length := by omega
        have hxy : 64 ≤ (X ++ Y).length := by rw [List.length_append]; omega
        rw [chunks64_step X, if_pos h64]
        rw [chunks64_step (X ++ Y), if_pos hxy]
        have htake : (X ++ Y).take 64 = X.take 64 := by
          rw [List.take_append_eq_append_take]
          have h0 : 64 - X.length = 0 := by omega
          simp [h0]
        have hdrop : (X ++ Y).drop 64 = X.drop 64 ++ Y := by
          rw [List.drop_append_eq_append_drop]
          have h0 : 64 - X.length = 0 := by omega
          simp [h0]
        rw [htake, hdrop,
          ih (X.drop 64) Y (by rw [List.length_drop]; omega) (by rw [List.length_drop]; omega)]
        rfl

theorem chunks64_flatten : ∀ n (l : List Nat), l.length ≤ n →
    (chunks64 l).flatten = l.take (64 * (chunks64 l).length) := by
  intro n
  induction n with
  | zero =>
      intro l h
      have hl : l = [] := List.eq_nil_of_length_eq_zero (by omega)
      subst hl
      rfl
  | succ n ih =>
      intro l h
      rw [chunks64_step]
      by_cases h64 : 64 ≤ l.length
      · rw [if_pos h64]
        rw [List.flatten_cons, List.length_cons]
        rw [ih (l.drop 64) (by rw [List.length_drop]; omega)]
        have h1 : 64 * ((chunks64 (l.drop 64)).length + 1)
            = 64 + 64 * (chunks64 (l.drop 64)).length := by ring
        rw [h1, List.take_add]
      · rw [if_neg h64]
        simp

theorem chunks64_length : ∀ n (l : List Nat), l.length ≤ n →
    (chunks64 l).length = l.length / 64 := by
  intro n
  induction n with
  | zero =>
      intro l h
      have hl : l = [] := List.eq_nil_of_length_eq_zero (by omega)
      subst hl
      rfl
  | succ n ih =>
      intro l h
      rw [chunks64_step]
      by_cases h64 : 64 ≤ l.length
      · rw [if_pos h64, List.length_cons,
          ih (l.drop 64) (by rw [List.length_drop]; omega), List.length_drop]
        omega
      · rw [if_neg h64]
        simp only [List.length_nil]
        omega

theorem chunks64_flatten_of_aligned (l : List Nat) (h : l.length % 64 = 0) :
    (chunks64 l).flatten = l := by
  rw [chunks64_flatten l.length l le_rfl, chunks64_length l.length l le_rfl]
  have h2 : 64 * (l.length / 64) = l.length := by omega
  rw [h2, List.take_length]

/-! ### Folding the compression function -/

theorem sha1_fold_blocks_append (st : Nat × Nat × Nat × Nat × Nat) (b1 b2 : List (List Nat)) :
    sha1_fold_blocks st (b1 ++ b2) = sha1_fold_blocks (sha1_fold_blocks st b1) b2 := by
  unfold sha1_fold_blocks
  exact List.foldl_append _ _ b1 b2

theorem sha1_block_core_lt (block : List Nat) (h0 h1 h2 h3 h4 : Nat) :
    (sha1_block_core block h0 h1 h2 h3 h4).1 < 4294967296 ∧
    (sha1_block_core block h0 h1 h2 h3 h4).2.1 < 4294967296 ∧
    (sha1_block_core block h0 h1 h2 h3 h4).2.2.1 < 4294967296 ∧
    (sha1_block_core block h0 h1 h2 h3 h4).2.2.2.1 < 4294967296 ∧
    (sha1_block_core block h0 h1 h2 h3 h4).2.2.2.2 < 4294967296 := by
  unfold sha1_block_core
  refine ⟨?_, ?_, ?_, ?_, ?_⟩ <;> exact Nat.mod_lt _ (by omega)

theorem sha1_fold_blocks_lt (blocks : List (List Nat)) :
    ∀ st : Nat × Nat × Nat × Nat × Nat,
      st.1 < 4294967296 → st.2.1 < 4294967296 → st.2.2.1 < 4294967296 →
      st.2.2.2.1 < 4294967296 → st.2.2.2.2 < 4294967296 →
      (sha1_fold_blocks st blocks).1 < 4294967296 ∧
      (sha1_fold_blocks st blocks).2.1 < 4294967296 ∧
      (sha1_fold_blocks st blocks).2.2.1 < 4294967296 ∧
      (sha1_fold_blocks st blocks).2.2.2.1 < 4294967296 ∧
      (sha1_fold_blocks st blocks).2.2.2.2 < 4294967296 := by
  induction blocks with
  | nil =>
      intro st a1 a2 a3 a4 a5
      exact ⟨a1, a2, a3, a4, a5⟩
  | cons b bs ih =>
      intro st a1 a2 a3 a4 a5
      have hstep : sha1_fold_blocks st (b :: bs)
          = sha1_fold_blocks (sha1_block_core b st.1 st.2.1 st.2.2.1 st.2.2.2.1 st.2.2.2.2) bs := by
        simp only [sha1_fold_blocks, List.foldl_cons]
      rw [hstep]
      have hb := sha1_block_core_lt b st.1 st.2.1 st.2.2.1 st.2.2.2.1 st.2.2.2.2
      exact ih _ hb.1 hb.2.1 hb.2.2.1 hb.2.2.2.1 hb.2.2.2.2

/-! ### Hex encoding and decoding -/

theorem is_hex_digit_hexChar (x : Nat) (h : x < 16) : is_hex_digit (hexChar x) := by
  interval_cases x <;> decide

theorem hex_digit_val_hexChar (x : Nat) (h : x < 16) : hex_digit_val (hexChar x) = x := by
  interval_cases x <;> decide

theorem bytesToHexChars_all_hex (bs : List Nat) (hb : ∀ b ∈ bs, b < 256) :
    ∀ c ∈ bytesToHexChars bs, is_hex_digit c := by
  induction bs with
  | nil => intro c hc; simp [bytesToHexChars] at hc
  | cons b bs ih =>
      intro c hc
      have hb0 : b < 256 := hb b (List.mem_cons_self b bs)
      simp only [bytesToHexChars, List.flatMap_cons, List.mem_append] at hc
      rcases hc with h1 | h2
      · rcases List.mem_cons.mp h1 with h3 | h3
        · subst h3; exact is_hex_digit_hexChar _ (by omega)
        · rcases List.mem_cons.mp h3 with h4 | h4
          · subst h4; exact is_hex_digit_hexChar _ (by omega)
          · simp at h4
      · exact ih (fun x hx => hb x (List.mem_cons_of_mem b hx)) c h2

theorem bytesToHexChars_foldl (bs : List Nat) (hb : ∀ b ∈ bs, b < 256) :
    ∀ a : Nat, (bytesToHexChars bs).foldl (fun a c => 16 * a + hex_digit_val c) a
      = bs.foldl (fun a b => 256 * a + b) a := by
  induction bs with
  | nil => intro a; rfl
  | cons b bs ih =>
      intro a
      have hb0 : b < 256 := hb b (List.mem_cons_self b bs)
      simp only [bytesToHexChars, List.flatMap_cons, List.foldl_append, List.foldl_cons,
        List.foldl_nil]
      rw [hex_digit_val_hexChar (b / 16) (by omega), hex_digit_val_hexChar (b % 16) (by omega)]
      have harith : 16 * (16 * a + b / 16) + b % 16 = 256 * a + b := by omega
      rw [harith]
      exact ih (fun x hx => hb x (List.mem_cons_of_mem b hx)) (256 * a + b)

theorem int_hex_bytesToHexChars (bs : List Nat) (hne : bs ≠ []) (hb : ∀ b ∈ bs, b < 256) :
    int_hex (bytesToHexChars bs) = some (from_be bs) := by
  unfold int_hex
  rw [if_pos]
  · rw [from_be, bytesToHexChars_foldl bs hb 0]
  · constructor
    · cases bs with
      | nil => exact absurd rfl hne
      | cons b bs => simp [bytesToHexChars]
    · exact bytesToHexChars_all_hex bs hb

theorem bytesToHexChars_append (b1 b2 : List Nat) :
    bytesToHexChars (b1 ++ b2) = bytesToHexChars b1 ++ bytesToHexChars b2 := by
  simp only [bytesToHexChars, List.flatMap_append]

theorem bytesToHexChars_length (bs : List Nat) :
    (bytesToHexChars bs).length = 2 * bs.length := by
  induction bs with
  | nil => rfl
  | cons b bs ih =>
      simp only [bytesToHexChars, List.flatMap_cons] at *
      simp only [List.length_append, List.length_cons, List.length_nil, List.length_cons, ih]
      omega

theorem bytesToHexChars_take (bs : List Nat) :
    ∀ k, (bytesToHexChars bs).take (2 * k) = bytesToHexChars (bs.take k) := by
  induction bs with
  | nil => intro k; simp [bytesToHexChars]
  | cons b bs ih =>
      intro k
      cases k with
      | zero => simp [bytesToHexChars]
      | succ k =>
          have h2 : 2 * (k + 1) = (2 * k) + 1 + 1 := by ring
          simp only [bytesToHexChars, List.flatMap_cons, List.take_succ_cons, h2]
          simp only [List.cons_append, List.nil_append, List.take_succ_cons]
          rw [← bytesToHexChars]
          rw [ih k]
          rfl

theorem bytesToHexChars_drop (bs : List Nat) :
    ∀ k, (bytesToHexChars bs).drop (2 * k) = bytesToHexChars (bs.drop k) := by
  induction bs with
  | nil => intro k; simp [bytesToHexChars]
  | cons b bs ih =>
      intro k
      cases k with
      | zero => simp
      | succ k =>
          have h2 : 2 * (k + 1) = (2 * k) + 1 + 1 := by ring
          simp only [bytesToHexChars, List.flatMap_cons, List.drop_succ_cons, h2]
          simp only [List.cons_append, List.nil_append, List.drop_succ_cons]
          rw [← bytesToHexChars]
          rw [ih k]
          rfl

theorem hex_slice (bs : List Nat) (k : Nat) :
    ((bytesToHexChars bs).drop (2 * k)).take 8 = bytesToHexChars ((bs.drop k).take 4) := by
  rw [bytesToHexChars_drop bs k, show (8 : Nat) = 2 * 4 from rfl,
    bytesToHexChars_take (bs.drop k) 4]

theorem from_be_pack_u32 (x : Nat) (h : x < 4294967296) : from_be (pack_u32 x) = x := by
  simp only [from_be, pack_u32, List.foldl_cons, List.foldl_nil]
  omega

theorem from_be_pack_u64 (x : Nat) (h : x < 18446744073709551616) :
    from_be (pack_u64 x) = x := by
  simp only [from_be, pack_u64, List.foldl_cons, List.foldl_nil]
  omega

theorem pack_u32_from_be (g : List Nat) (h4 : g.length = 4) (hb : ∀ b ∈ g, b < 256) :
    pack_u32 (from_be g) = g := by
  match g, h4 with
  | [x, y, z, w], _ =>
      simp only [List.mem_cons, List.not_mem_nil, or_false, forall_eq_or_imp, forall_eq] at hb
      obtain ⟨hx, hy, hz, hw⟩ := hb
      simp only [from_be, pack_u32, List.foldl_cons, List.foldl_nil, List.cons.injEq,
        and_true]
      refine ⟨?_, ?_, ?_, ?_⟩ <;> omega

theorem pack_u32_mem_lt (x : Nat) : ∀ b ∈ pack_u32 x, b < 256 := by
  intro b hb
  simp only [pack_u32, List.mem_cons, List.not_mem_nil, or_false] at hb
  rcases hb with h | h | h | h <;> subst h <;> omega

theorem pack5_mem_lt (st : Nat × Nat × Nat × Nat × Nat) : ∀ b ∈ pack5 st, b < 256 := by
  intro b hb
  simp only [pack5, List.mem_append] at hb
  rcases hb with ((((h | h) | h) | h) | h) <;> exact pack_u32_mem_lt _ b h

theorem pack5_length (st : Nat × Nat × Nat × Nat × Nat) : (pack5 st).length = 20 := by
  simp [pack5, pack_u32]

theorem parse_state_pack5 (st : Nat × Nat × Nat × Nat × Nat)
    (b1 : st.1 < 4294967296) (b2 : st.2.1 < 4294967296) (b3 : st.2.2.1 < 4294967296)
    (b4 : st.2.2.2.1 < 4294967296) (b5 : st.2.2.2.2 < 4294967296) :
    parse_state (bytesToHexChars (pack5 st)) = some st := by
  obtain ⟨a, b, c, d, e⟩ := st
  simp only at b1 b2 b3 b4 b5
  unfold parse_state
  rw [show (0 : Nat) = 2 * 0 from rfl, show (8 : Nat) = 2 * 4 from rfl,
    show (16 : Nat) = 2 * 8 from rfl, show (24 : Nat) = 2 * 12 from rfl,
    show (32 : Nat) = 2 * 16 from rfl]
  rw [hex_slice, hex_slice, hex_slice, hex_slice, hex_slice]
  have hg0 : ((pack5 (a, b, c, d, e)).drop 0).take 4 = pack_u32 a := by
    simp [pack5, pack_u32]
  have hg1 : ((pack5 (a, b, c, d, e)).drop 4).take 4 = pack_u32 b := by
    simp [pack5, pack_u32]
  have hg2 : ((pack5 (a, b, c, d, e)).drop 8).take 4 = pack_u32 c := by
    simp [pack5, pack_u32]
  have hg3 : ((pack5 (a, b, c, d, e)).drop 12).take 4 = pack_u32 d := by
    simp [pack5, pack_u32]
  have hg4 : ((pack5 (a, b, c, d, e)).drop 16).take 4 = pack_u32 e := by
    simp [pack5, pack_u32]
  rw [hg0, hg1, hg2, hg3, hg4]
  rw [int_hex_bytesToHexChars _ (by simp [pack_u32]) (pack_u32_mem_lt a),
    int_hex_bytesToHexChars _ (by simp [pack_u32]) (pack_u32_mem_lt b),
    int_hex_bytesToHexChars _ (by simp [pack_u32]) (pack_u32_mem_lt c),
    int_hex_bytesToHexChars _ (by simp [pack_u32]) (pack_u32_mem_lt d),
    int_hex_bytesToHexChars _ (by simp [pack_u32]) (pack_u32_mem_lt e)]
  rw [from_be_pack_u32 a b1, from_be_pack_u32 b b2, from_be_pack_u32 c b3,
    from_be_pack_u32 d b4, from_be_pack_u32 e b5]

/-! ### The compression function as described by the spec -/

/-- Modelled from the spec (section 4.2): the SHA-1 message schedule as a
recursive function: the first 16 words come from the block, and
`w[i] = rotl(w[i-3] XOR w[i-8] XOR w[i-14] XOR w[i-16], 1)` for `i ≥ 16`. -/
def sha1_schedule_spec (u : Nat → Nat) (i : Nat) : Nat :=
  if h : i < 16 then u i
  else
    _left_rotate
      (sha1_schedule_spec u (i - 3) ^^^ sha1_schedule_spec u (i - 8) ^^^
        sha1_schedule_spec u (i - 14) ^^^ sha1_schedule_spec u (i - 16)) 1
termination_by i
decreasing_by all_goals omega

/-- Modelled from the spec (section 4.2): one round of the standard mixing
function, with the four round-dependent nonlinear functions and additive
constants, updating `a` from `rotl(a,5) + f + e + k + w[i] (mod 2^32)` and
rotating the 5-register working state. -/
def sha1_round_spec (wf : Nat → Nat) (st : Nat × Nat × Nat × Nat × Nat) (i : Nat) :
    Nat × Nat × Nat × Nat × Nat :=
  let a := st.1
  let b := st.2.1
  let c := st.2.2.1
  let d := st.2.2.2.1
  let e := st.2.2.2.2
  let f :=
    if i < 20 then (b &&& c) ||| (d ^^^ (d &&& b))
    else if i < 40 then b ^^^ c ^^^ d
    else if i < 60 then (b &&& c) ||| (b &&& d) ||| (c &&& d)
    else b ^^^ c ^^^ d
  let k :=
    if i < 20 then 0x5A827999
    else if i < 40 then 0x6ED9EBA1
    else if i < 60 then 0x8F1BBCDC
    else 0xCA62C1D6
  ((_left_rotate a 5 + f + e + k + wf i) % 4294967296, a, _left_rotate b 30, c, d)

/-- Modelled from the spec (section 4.2): the standard SHA-1 compression
function, folding 80 rounds over the recursively defined schedule and adding
the final registers into the input state modulo `2 ^ 32`. -/
def sha1_compress_spec (h0 h1 h2 h3 h4 : Nat) (block : List Nat) : Nat × Nat × Nat × Nat × Nat :=
  let r := (List.range 80).foldl
    (sha1_round_spec (sha1_schedule_spec (unpack_u32 block))) (h0, h1, h2, h3, h4)
  ((h0 + r.1) % 4294967296, (h1 + r.2.1) % 4294967296, (h2 + r.2.2.1) % 4294967296,
   (h3 + r.2.2.2.1) % 4294967296, (h4 + r.2.2.2.2) % 4294967296)

theorem sha1_initial_w_length (block : List Nat) : (sha1_initial_w block).length = 80 := by
  simp [sha1_initial_w]

theorem sha1_initial_w_getD (block : List Nat) (j : Nat) (hj : j < 16) :
    (sha1_initial_w block).getD j 0 = unpack_u32 block j := by
  rw [List.getD_eq_getElem?_getD, sha1_initial_w, List.getElem?_append]
  rw [if_pos (by simp; omega)]
  rw [List.getElem?_map, List.getElem?_range hj]
  rfl

theorem sha1_expand_from_eq (u : Nat → Nat) :
    ∀ fuel i w, i + fuel = 80 → 16 ≤ i → w.length = 80 →
      (∀ j, j < i → w.getD j 0 = sha1_schedule_spec u j) →
      ∀ j, j < 80 → (sha1_expand_from w i fuel).getD j 0 = sha1_schedule_spec u j := by
  intro fuel
  induction fuel with
  | zero =>
      intro i w hif h16 hlen hinv j hj
      exact hinv j (by omega)
  | succ fuel ih =>
      intro i w hif h16 hlen hinv j hj
      show (sha1_expand_from (w.set i (_left_rotate
          (w.getD (i - 3) 0 ^^^ w.getD (i - 8) 0 ^^^ w.getD (i - 14) 0 ^^^ w.getD (i - 16) 0) 1))
        (i + 1) fuel).getD j 0 = sha1_schedule_spec u j
      apply ih (i + 1) _ (by omega) (by omega) (by rw [List.length_set]; exact hlen) _ j hj
      intro j2 hj2
      rw [List.getD_eq_getElem?_getD, List.getElem?_set]
      by_cases hji : i = j2
      · rw [if_pos hji, if_pos (by omega)]
        simp only [Option.getD_some]
        subst hji
        rw [hinv (i - 3) (by omega), hinv (i - 8) (by omega), hinv (i - 14) (by omega),
          hinv (i - 16) (by omega)]
        conv_rhs => rw [sha1_schedule_spec]
        rw [dif_neg (by omega)]
      · rw [if_neg hji, ← List.getD_eq_getElem?_getD]
        exact hinv j2 (by omega)

theorem sha1_round_from_eq (wl : List Nat) (wf : Nat → Nat)
    (hw : ∀ j, j < 80 → wl.getD j 0 = wf j) :
    ∀ fuel i a b c d e, i + fuel = 80 →
      sha1_round_from wl a b c d e i fuel
        = (List.range' i fuel).foldl (sha1_round_spec wf) (a, b, c, d, e) := by
  intro fuel
  induction fuel with
  | zero => intro i a b c d e hif; rfl
  | succ fuel ih =>
      intro i a b c d e hif
      rw [List.range'_succ]
      simp only [List.foldl_cons]
      show sha1_round_from wl
          ((_left_rotate a 5 +
              (if i < 20 then (b &&& c) ||| (d ^^^ (d &&& b))
               else if i < 40 then b ^^^ c ^^^ d
               else if i < 60 then (b &&& c) ||| (b &&& d) ||| (c &&& d)
               else b ^^^ c ^^^ d) + e +
              (if i < 20 then 0x5A827999
               else if i < 40 then 0x6ED9EBA1
               else if i < 60 then 0x8F1BBCDC
               else 0xCA62C1D6) + wl.getD i 0) % 4294967296)
          a (_left_rotate b 30) c d (i + 1) fuel
        = List.foldl (sha1_round_spec wf) (sha1_round_spec wf (a, b, c, d, e) i)
            (List.range' (i + 1) fuel)
      rw [ih (i + 1) _ _ _ _ _ (by omega)]
      congr 1
      simp only [sha1_round_spec]
      rw [hw i (by omega)]

/-! ### Claim theorems -/

/-- C2: for every 5-word chaining state (each word below `2 ^ 32`) and every
64-byte block, `sha1_process_block` equals the standard SHA-1 compression
function: 80-word schedule by `w[i] = rotl(w[i-3] XOR w[i-8] XOR w[i-14] XOR
w[i-16], 1)`, 80 rounds with the four standard round functions and constants,
and the final addition of the working registers into the state modulo
`2 ^ 32`. -/
theorem sha1_process_block_eq_spec (block : List Nat) (h0 h1 h2 h3 h4 : Nat)
    (hlen : block.length = 64)
    (b0 : h0 < 4294967296) (b1 : h1 < 4294967296) (b2 : h2 < 4294967296)
    (b3 : h3 < 4294967296) (b4 : h4 < 4294967296) :
    sha1_process_block block h0 h1 h2 h3 h4 = some (sha1_compress_spec h0 h1 h2 h3 h4 block) := by
  have hw : ∀ j, j < 80 → (sha1_expand_from (sha1_initial_w block) 16 64).getD j 0
      = sha1_schedule_spec (unpack_u32 block) j := by
    apply sha1_expand_from_eq (unpack_u32 block) 64 16 (sha1_initial_w block) (by omega)
      (by omega) (sha1_initial_w_length block)
    intro j hj
    rw [sha1_initial_w_getD block j hj, sha1_schedule_spec, dif_pos hj]
  have hr := sha1_round_from_eq _ _ hw 80 0 h0 h1 h2 h3 h4 (by omega)
  have hcore : sha1_block_core block h0 h1 h2 h3 h4 = sha1_compress_spec h0 h1 h2 h3 h4 block := by
    simp only [sha1_block_core, sha1_compress_spec]
    rw [hr, ← List.range_eq_range']
  rw [sha1_process_block, if_pos hlen, hcore]

/-- Witness for C2 at the all-zero block and all-zero state. -/
theorem sha1_process_block_eq_spec_witness :
    (List.replicate 64 0).length = 64 ∧
    sha1_process_block (List.replicate 64 0) 0 0 0 0 0
      = some (sha1_compress_spec 0 0 0 0 0 (List.replicate 64 0)) :=
  ⟨by decide,
   sha1_process_block_eq_spec (List.replicate 64 0) 0 0 0 0 0 (by decide)
     (by decide) (by decide) (by decide) (by decide) (by decide)⟩

/-- C3: for every byte length `L` whose bit length fits in 64 bits,
`sha1_padding L` is exactly `0x80`, then `k` zero bytes where `k` is the
smallest non-negative solution of `L + 1 + k = 56 (mod 64)`, then the
big-endian 64-bit encoding of `L * 8`; its length lies in `[9, 72]`,
`(L + length) mod 64 = 0`, and its last 8 bytes decode big-endian to
`L * 8`. -/
theorem sha1_padding_spec (L : Nat) (h : L * 8 < 18446744073709551616) :
    ∃ k, sha1_padding L = 128 :: (List.replicate k 0 ++ pack_u64 (L * 8)) ∧
      (L + 1 + k) % 64 = 56 ∧
      (∀ j, (L + 1 + j) % 64 = 56 → k ≤ j) ∧
      (sha1_padding L).length = 9 + k ∧
      9 ≤ (sha1_padding L).length ∧ (sha1_padding L).length ≤ 72 ∧
      (L + (sha1_padding L).length) % 64 = 0 ∧
      (sha1_padding L).drop ((sha1_padding L).length - 8) = pack_u64 (L * 8) ∧
      from_be ((sha1_padding L).drop ((sha1_padding L).length - 8)) = L * 8 := by
  refine ⟨(120 - (L + 1) % 64) % 64, rfl, by omega, fun j hj => by omega, ?_, ?_, ?_, ?_, ?_, ?_⟩
  · rw [sha1_padding_length]
  · exact sha1_padding_length_ge L
  · exact sha1_padding_length_le L
  · exact sha1_padding_length_mod L
  · have hdrop : (sha1_padding L).length - 8 = 1 + (120 - (L + 1) % 64) % 64 := by
      rw [sha1_padding_length]
      omega
    rw [hdrop, sha1_padding]
    rw [show 1 + (120 - (L + 1) % 64) % 64 = (120 - (L + 1) % 64) % 64 + 1 by omega]
    rw [List.drop_succ_cons]
    rw [List.drop_append_eq_append_drop, List.drop_replicate, List.length_replicate]
    simp
  · have hdrop : (sha1_padding L).length - 8 = 1 + (120 - (L + 1) % 64) % 64 := by
      rw [sha1_padding_length]
      omega
    rw [hdrop, sha1_padding]
    rw [show 1 + (120 - (L + 1) % 64) % 64 = (120 - (L + 1) % 64) % 64 + 1 by omega]
    rw [List.drop_succ_cons]
    rw [List.drop_append_eq_append_drop, List.drop_replicate, List.length_replicate]
    simp only [Nat.sub_self, List.replicate_zero, List.nil_append, Nat.le_refl,
      Nat.sub_eq_zero_of_le, List.drop_zero]
    exact from_be_pack_u64 (L * 8) h

/-- Witness for C3 at `L = 11` (the concrete scenario's original length). -/
theorem sha1_padding_spec_witness :
    11 * 8 < 18446744073709551616 ∧
    ∃ k, sha1_padding 11 = 128 :: (List.replicate k 0 ++ pack_u64 (11 * 8)) ∧
      (11 + 1 + k) % 64 = 56 ∧
      (∀ j, (11 + 1 + j) % 64 = 56 → k ≤ j) ∧
      (sha1_padding 11).length = 9 + k ∧
      9 ≤ (sha1_padding 11).length ∧ (sha1_padding 11).length ≤ 72 ∧
      (11 + (sha1_padding 11).length) % 64 = 0 ∧
      (sha1_padding 11).drop ((sha1_padding 11).length - 8) = pack_u64 (11 * 8) ∧
      from_be ((sha1_padding 11).drop ((sha1_padding 11).length - 8)) = 11 * 8 :=
  ⟨by decide, sha1_padding_spec 11 (by decide)⟩

/-- C7: `sha1_process_block` fails (raises, modelled as `none`) exactly on
blocks whose length is not 64 bytes, and succeeds on every 64-byte block;
it never pads or truncates. -/
theorem sha1_process_block_length_contract (block : List Nat) (h0 h1 h2 h3 h4 : Nat) :
    (sha1_process_block block h0 h1 h2 h3 h4 = none ↔ block.length ≠ 64) ∧
    (block.length = 64 →
      sha1_process_block block h0 h1 h2 h3 h4 = some (sha1_block_core block h0 h1 h2 h3 h4)) := by
  unfold sha1_process_block
  by_cases hl : block.length = 64
  · rw [if_pos hl]
    exact ⟨by simp [hl], fun _ => rfl⟩
  · rw [if_neg hl]
    exact ⟨by simp [hl], fun h => absurd h hl⟩

/-- C4: whenever the original digest parses, the forged suffix returned by
`sha1_extend` is exactly
`known_suffix ++ sha1_padding (assumed_secret_length + len(known_suffix)) ++ append_bytes`. -/
theorem sha1_extend_forged_suffix (original_hash_hex : List Char) (K A : List Nat)
    (n : Nat) (st : Nat × Nat × Nat × Nat × Nat)
    (h : parse_state original_hash_hex = some st) :
    (sha1_extend original_hash_hex K A n).map Prod.snd
      = some (K ++ sha1_padding (n + K.length) ++ A) := by
  rw [sha1_extend, h]
  rfl

/-- Witness for C4 at the all-zero 40-character digest. -/
theorem sha1_extend_forged_suffix_witness :
    parse_state (List.replicate 40 (Char.ofNat 48)) = some (0, 0, 0, 0, 0) ∧
    (sha1_extend (List.replicate 40 (Char.ofNat 48)) [] [] 0).map Prod.snd
      = some ([] ++ sha1_padding (0 + List.length ([] : List Nat)) ++ []) :=
  ⟨by decide,
   sha1_extend_forged_suffix (List.replicate 40 (Char.ofNat 48)) [] [] 0 (0, 0, 0, 0, 0)
     (by decide)⟩

/-- C5: the `previous_length` that `sha1_extend` passes to `sha1_extend_hash`
(assumed secret length + known-suffix length + bridge-padding length) is a
multiple of 64; the appended data plus its tail padding is then an exact
multiple of 64 bytes, so the defensive short-fragment branch never fires and
every byte of `append_bytes ++ tail_padding` is processed. -/
theorem sha1_extend_alignment (secret_length : Nat) (original_data append_data : List Nat) :
    (secret_length + original_data.length
        + (sha1_padding (secret_length + original_data.length)).length) % 64 = 0 ∧
    (append_data.length + (sha1_padding (secret_length + original_data.length
        + (sha1_padding (secret_length + original_data.length)).length
        + append_data.length)).length) % 64 = 0 ∧
    (chunks64 (append_data ++ sha1_padding (secret_length + original_data.length
        + (sha1_padding (secret_length + original_data.length)).length
        + append_data.length))).flatten
      = append_data ++ sha1_padding (secret_length + original_data.length
        + (sha1_padding (secret_length + original_data.length)).length
        + append_data.length) := by
  have h1 := sha1_padding_length_mod (secret_length + original_data.length)
  have h2 := sha1_padding_length_mod (secret_length + original_data.length
    + (sha1_padding (secret_length + original_data.length)).length + append_data.length)
  refine ⟨by omega, by omega, ?_⟩
  apply chunks64_flatten_of_aligned
  rw [List.length_append]
  omega

/-- C6 counterexample: a 41-character all-hex string is not rejected by the
state parse in `sha1_extend`; it is parsed from its first 40 characters. -/
theorem parse_state_wrong_length_counterexample :
    (List.replicate 41 (Char.ofNat 48)).length ≠ 40 ∧
    (∀ c ∈ List.replicate 41 (Char.ofNat 48), is_hex_digit c) ∧
    parse_state (List.replicate 41 (Char.ofNat 48)) ≠ none :=
  ⟨by decide, by decide, by decide⟩

/-- C6 (amended): every exactly-40-character hex string parses into the 5
big-endian 32-bit words of its consecutive 8-character groups; rejection
happens when a group is empty (length at most 32) — but strings of other
lengths are not reliably rejected (see the counterexample). -/
theorem parse_state_amended (s : List Char) (h40 : s.length = 40)
    (hhex : ∀ c ∈ s, is_hex_digit c) :
    parse_state s = some
      (((s.drop 0).take 8).foldl (fun a c => 16 * a + hex_digit_val c) 0,
       ((s.drop 8).take 8).foldl (fun a c => 16 * a + hex_digit_val c) 0,
       ((s.drop 16).take 8).foldl (fun a c => 16 * a + hex_digit_val c) 0,
       ((s.drop 24).take 8).foldl (fun a c => 16 * a + hex_digit_val c) 0,
       ((s.drop 32).take 8).foldl (fun a c => 16 * a + hex_digit_val c) 0) ∧
    ∀ t : List Char, t.length ≤ 32 → parse_state t = none := by
  constructor
  · have hslice : ∀ i : Nat, i ≤ 32 → int_hex ((s.drop i).take 8)
        = some (((s.drop i).take 8).foldl (fun a c => 16 * a + hex_digit_val c) 0) := by
      intro i hi
      rw [int_hex, if_pos]
      constructor
      · have hlen8 : ((s.drop i).take 8).length = 8 := by
          rw [List.length_take, List.length_drop, h40]
          omega
        intro he
        rw [he] at hlen8
        simp at hlen8
      · intro c hc
        exact hhex c (List.mem_of_mem_drop (List.mem_of_mem_take hc))
    rw [parse_state, hslice 0 (by omega), hslice 8 (by omega), hslice 16 (by omega),
      hslice 24 (by omega), hslice 32 (by omega)]
  · intro t ht
    have h5 : (t.drop 32).take 8 = [] := by
      have hd : t.drop 32 = [] := List.drop_eq_nil_iff.mpr ht
      rw [hd]
      rfl
    have hnone : int_hex (([] : List Char)) = none := by
      rw [int_hex, if_neg]
      simp
    rw [parse_state, h5, hnone]
    rcases int_hex ((t.drop 0).take 8) with _ | a <;>
      rcases int_hex ((t.drop 8).take 8) with _ | b <;>
      rcases int_hex ((t.drop 16).take 8) with _ | c <;>
      rcases int_hex ((t.drop 24).take 8) with _ | d <;> rfl

/-- Witness for the amended C6: the all-zero 40-character digest parses to the
zero state, and a 30-character string is rejected. -/
theorem parse_state_amended_witness :
    parse_state (List.replicate 40 (Char.ofNat 48)) = some (0, 0, 0, 0, 0) ∧
    parse_state (List.replicate 30 (Char.ofNat 48)) = none := by
  have h := parse_state_amended (List.replicate 40 (Char.ofNat 48)) (by decide) (by decide)
  exact ⟨h.1.trans (by decide), h.2 (List.replicate 30 (Char.ofNat 48)) (by decide)⟩

theorem hex_digit_val_lt (c : Char) (h : is_hex_digit c) : hex_digit_val c < 16 := by
  rcases h with ⟨h1, h2⟩ | ⟨h1, h2⟩ | ⟨h1, h2⟩ <;> unfold hex_digit_val <;> split_ifs <;> omega

theorem hex_foldl_lt (s : List Char) : ∀ a, (∀ c ∈ s, hex_digit_val c < 16) →
    s.foldl (fun a c => 16 * a + hex_digit_val c) a < (a + 1) * 16 ^ s.length := by
  induction s with
  | nil =>
      intro a _
      simp only [List.foldl_nil, List.length_nil, pow_zero, mul_one]
      omega
  | cons c s ih =>
      intro a hall
      simp only [List.foldl_cons, List.length_cons]
      have h1 := ih (16 * a + hex_digit_val c)
        (fun x hx => hall x (List.mem_cons_of_mem _ hx))
      have hc : hex_digit_val c < 16 := hall c (List.mem_cons_self _ _)
      have h2 : (16 * a + hex_digit_val c + 1) * 16 ^ s.length
          ≤ (a + 1) * 16 ^ (s.length + 1) := by
        rw [pow_succ]
        have h3 : 16 * a + hex_digit_val c + 1 ≤ (a + 1) * 16 := by omega
        calc (16 * a + hex_digit_val c + 1) * 16 ^ s.length
            ≤ (a + 1) * 16 * 16 ^ s.length := Nat.mul_le_mul_right _ h3
          _ = (a + 1) * (16 ^ s.length * 16) := by ring
      omega

theorem int_hex_lt (s : List Char) (v : Nat) (h : int_hex s = some v) : v < 16 ^ s.length := by
  unfold int_hex at h
  split at h
  · rename_i hcond
    have hv : v = s.foldl (fun a c => 16 * a + hex_digit_val c) 0 := by
      injection h with h2
      omega
    subst hv
    have := hex_foldl_lt s 0 (fun c hc => hex_digit_val_lt c (hcond.2 c hc))
    omega
  · exact absurd h (by simp)

theorem parse_state_some_eq (s : List Char) (st : Nat × Nat × Nat × Nat × Nat)
    (h : parse_state s = some st) :
    int_hex ((s.drop 0).take 8) = some st.1 ∧ int_hex ((s.drop 8).take 8) = some st.2.1 ∧
    int_hex ((s.drop 16).take 8) = some st.2.2.1 ∧
    int_hex ((s.drop 24).take 8) = some st.2.2.2.1 ∧
    int_hex ((s.drop 32).take 8) = some st.2.2.2.2 := by
  unfold parse_state at h
  split at h
  · rename_i a b c d e heq1 heq2 heq3 heq4 heq5
    injection h with h2
    subst h2
    exact ⟨heq1, heq2, heq3, heq4, heq5⟩
  · exact absurd h (by simp)

theorem int_hex_slice_lt (s : List Char) (i v : Nat) (h : int_hex ((s.drop i).take 8) = some v) :
    v < 4294967296 := by
  have h1 := int_hex_lt _ _ h
  have h2 : ((s.drop i).take 8).length ≤ 8 := by
    rw [List.length_take]
    omega
  have h3 : (16 : Nat) ^ ((s.drop i).take 8).length ≤ 16 ^ 8 :=
    Nat.pow_le_pow_right (by omega) h2
  omega

set_option maxHeartbeats 1000000 in
/-- C8: every chaining state the program produces is 5 words, each reduced
modulo `2 ^ 32`: the compression function masks all five output words for any
inputs, the state parsed from a hex digest has all five words below `2 ^ 32`,
and the invariant is preserved across every fold of the compression
function. -/
theorem chaining_state_words_lt :
    (∀ block h0 h1 h2 h3 h4 st, sha1_process_block block h0 h1 h2 h3 h4 = some st →
      st.1 < 4294967296 ∧ st.2.1 < 4294967296 ∧ st.2.2.1 < 4294967296 ∧
      st.2.2.2.1 < 4294967296 ∧ st.2.2.2.2 < 4294967296) ∧
    (∀ s st, parse_state s = some st →
      st.1 < 4294967296 ∧ st.2.1 < 4294967296 ∧ st.2.2.1 < 4294967296 ∧
      st.2.2.2.1 < 4294967296 ∧ st.2.2.2.2 < 4294967296) ∧
    (∀ blocks (st : Nat × Nat × Nat × Nat × Nat),
      st.1 < 4294967296 → st.2.1 < 4294967296 → st.2.2.1 < 4294967296 →
      st.2.2.2.1 < 4294967296 → st.2.2.2.2 < 4294967296 →
      (sha1_fold_blocks st blocks).1 < 4294967296 ∧
      (sha1_fold_blocks st blocks).2.1 < 4294967296 ∧
      (sha1_fold_blocks st blocks).2.2.1 < 4294967296 ∧
      (sha1_fold_blocks st blocks).2.2.2.1 < 4294967296 ∧
      (sha1_fold_blocks st blocks).2.2.2.2 < 4294967296) := by
  refine ⟨?_, ?_, fun blocks st => sha1_fold_blocks_lt blocks st⟩
  · intro block h0 h1 h2 h3 h4 st h
    rw [sha1_process_block] at h
    split at h
    · rw [Option.some.injEq] at h
      rw [← h]
      exact sha1_block_core_lt block h0 h1 h2 h3 h4
    · exact absurd h (by simp)
  · intro s st h
    obtain ⟨e1, e2, e3, e4, e5⟩ := parse_state_some_eq s st h
    exact ⟨int_hex_slice_lt s 0 _ e1, int_hex_slice_lt s 8 _ e2, int_hex_slice_lt s 16 _ e3,
      int_hex_slice_lt s 24 _ e4, int_hex_slice_lt s 32 _ e5⟩

/-- Witness for C8: the compression output on the zero block, the parsed
zero digest, and the empty fold all satisfy the word bounds. -/
theorem chaining_state_words_lt_witness :
    ((sha1_block_core (List.replicate 64 0) 0 0 0 0 0).1 < 4294967296 ∧
     (sha1_block_core (List.replicate 64 0) 0 0 0 0 0).2.1 < 4294967296 ∧
     (sha1_block_core (List.replicate 64 0) 0 0 0 0 0).2.2.1 < 4294967296 ∧
     (sha1_block_core (List.replicate 64 0) 0 0 0 0 0).2.2.2.1 < 4294967296 ∧
     (sha1_block_core (List.replicate 64 0) 0 0 0 0 0).2.2.2.2 < 4294967296) ∧
    (((0 : Nat), (0 : Nat), (0 : Nat), (0 : Nat), (0 : Nat)).1 < 4294967296 ∧
     ((0 : Nat), (0 : Nat), (0 : Nat), (0 : Nat), (0 : Nat)).2.1 < 4294967296 ∧
     ((0 : Nat), (0 : Nat), (0 : Nat), (0 : Nat), (0 : Nat)).2.2.1 < 4294967296 ∧
     ((0 : Nat), (0 : Nat), (0 : Nat), (0 : Nat), (0 : Nat)).2.2.2.1 < 4294967296 ∧
     ((0 : Nat), (0 : Nat), (0 : Nat), (0 : Nat), (0 : Nat)).2.2.2.2 < 4294967296) ∧
    ((sha1_fold_blocks (0, 0, 0, 0, 0) []).1 < 4294967296 ∧
     (sha1_fold_blocks (0, 0, 0, 0, 0) []).2.1 < 4294967296 ∧
     (sha1_fold_blocks (0, 0, 0, 0, 0) []).2.2.1 < 4294967296 ∧
     (sha1_fold_blocks (0, 0, 0, 0, 0) []).2.2.2.1 < 4294967296 ∧
     (sha1_fold_blocks (0, 0, 0, 0, 0) []).2.2.2.2 < 4294967296) :=
  ⟨chaining_state_words_lt.1 (List.replicate 64 0) 0 0 0 0 0 _ rfl,
   chaining_state_words_lt.2.1 (List.replicate 40 (Char.ofNat 48)) (0, 0, 0, 0, 0) (by decide),
   chaining_state_words_lt.2.2 [] (0, 0, 0, 0, 0) (by decide) (by decide) (by decide)
     (by decide) (by decide)⟩

/-- C9: parsing composed with re-serialization is the identity: any valid
40-hex-character digest (the hex encoding of 20 bytes) parses to a 5-word
state whose big-endian re-packing reproduces the original 20 digest bytes. -/
theorem parse_state_pack_identity (d : List Nat) (h20 : d.length = 20)
    (hb : ∀ b ∈ d, b < 256) :
    ∃ st, parse_state (bytesToHexChars d) = some st ∧ pack5 st = d := by
  have hglen : ∀ i : Nat, i ≤ 16 → ((d.drop i).take 4).length = 4 := by
    intro i hi
    rw [List.length_take, List.length_drop, h20]
    omega
  have hgmem : ∀ i : Nat, ∀ b ∈ (d.drop i).take 4, b < 256 := by
    intro i b hbm
    exact hb b (List.mem_of_mem_drop (List.mem_of_mem_take hbm))
  have hg : ∀ i : Nat, i ≤ 16 → int_hex (((bytesToHexChars d).drop (2 * i)).take 8)
      = some (from_be ((d.drop i).take 4)) := by
    intro i hi
    rw [hex_slice d i]
    apply int_hex_bytesToHexChars _ _ (hgmem i)
    intro he
    have h4 := hglen i hi
    rw [he] at h4
    simp at h4
  refine ⟨(from_be ((d.drop 0).take 4), from_be ((d.drop 4).take 4),
    from_be ((d.drop 8).take 4), from_be ((d.drop 12).take 4),
    from_be ((d.drop 16).take 4)), ?_, ?_⟩
  · rw [parse_state]
    rw [show ((bytesToHexChars d).drop 0) = ((bytesToHexChars d).drop (2 * 0)) from rfl,
      show ((bytesToHexChars d).drop 8) = ((bytesToHexChars d).drop (2 * 4)) from rfl,
      show ((bytesToHexChars d).drop 16) = ((bytesToHexChars d).drop (2 * 8)) from rfl,
      show ((bytesToHexChars d).drop 24) = ((bytesToHexChars d).drop (2 * 12)) from rfl,
      show ((bytesToHexChars d).drop 32) = ((bytesToHexChars d).drop (2 * 16)) from rfl]
    rw [hg 0 (by omega), hg 4 (by omega), hg 8 (by omega), hg 12 (by omega),
      hg 16 (by omega)]
  · have h16 : (d.drop 16).take 4 = d.drop 16 :=
      List.take_of_length_le (by rw [List.length_drop, h20])
    have s3 : (d.drop 12).take 4 ++ d.drop 16 = d.drop 12 := by
      have h1 : d.drop 16 = (d.drop 12).drop 4 := by
        rw [List.drop_drop]
      rw [h1, List.take_append_drop]
    have s2 : (d.drop 8).take 4 ++ ((d.drop 12).take 4 ++ d.drop 16) = d.drop 8 := by
      rw [s3]
      have h1 : d.drop 12 = (d.drop 8).drop 4 := by
        rw [List.drop_drop]
      rw [h1, List.take_append_drop]
    have s1 : (d.drop 4).take 4 ++ ((d.drop 8).take 4 ++ ((d.drop 12).take 4 ++ d.drop 16))
        = d.drop 4 := by
      rw [s2]
      have h1 : d.drop 8 = (d.drop 4).drop 4 := by
        rw [List.drop_drop]
      rw [h1, List.take_append_drop]
    show pack_u32 (from_be ((d.drop 0).take 4)) ++ (pack_u32 (from_be ((d.drop 4).take 4)) ++
      (pack_u32 (from_be ((d.drop 8).take 4)) ++ (pack_u32 (from_be ((d.drop 12).take 4)) ++
        pack_u32 (from_be ((d.drop 16).take 4))))) = d
    rw [pack_u32_from_be _ (hglen 0 (by omega)) (hgmem 0),
      pack_u32_from_be _ (hglen 4 (by omega)) (hgmem 4),
      pack_u32_from_be _ (hglen 8 (by omega)) (hgmem 8),
      pack_u32_from_be _ (hglen 12 (by omega)) (hgmem 12),
      pack_u32_from_be _ (hglen 16 (by omega)) (hgmem 16)]
    rw [h16, List.drop_zero, s1, List.take_append_drop]

/-- Witness for C9 at the all-zero 20-byte digest. -/
theorem parse_state_pack_identity_witness :
    (List.replicate 20 0).length = 20 ∧
    (∀ b ∈ List.replicate 20 0, b < 256) ∧
    ∃ st, parse_state (bytesToHexChars (List.replicate 20 0)) = some st ∧
      pack5 st = List.replicate 20 0 :=
  ⟨by decide, by decide, parse_state_pack_identity (List.replicate 20 0) (by decide) (by decide)⟩

/-- C10: when `previous_length` is not a multiple of 64, the padded data is
not 64-byte aligned, a non-empty trailing fragment is silently discarded
without any error, and the returned 20-byte digest is the fold of the
compression function over only the full 64-byte blocks. -/
theorem sha1_extend_hash_misaligned (h0 h1 h2 h3 h4 : Nat) (data : List Nat) (prev : Nat)
    (hprev : prev % 64 ≠ 0) :
    (data.length + (sha1_padding (prev + data.length)).length) % 64 ≠ 0 ∧
    64 * (chunks64 (data ++ sha1_padding (prev + data.length))).length
      < (data ++ sha1_padding (prev + data.length)).length ∧
    (chunks64 (data ++ sha1_padding (prev + data.length))).flatten
      = (data ++ sha1_padding (prev + data.length)).take
          (64 * (chunks64 (data ++ sha1_padding (prev + data.length))).length) ∧
    sha1_extend_hash (h0, h1, h2, h3, h4) data prev
      = pack5 (sha1_fold_blocks (h0, h1, h2, h3, h4)
          (chunks64 (data ++ sha1_padding (prev + data.length)))) ∧
    (sha1_extend_hash (h0, h1, h2, h3, h4) data prev).length = 20 := by
  have hmod := sha1_padding_length_mod (prev + data.length)
  have hlen : (data ++ sha1_padding (prev + data.length)).length % 64 ≠ 0 := by
    rw [List.length_append]
    omega
  refine ⟨by omega, ?_, ?_, rfl, pack5_length _⟩
  · rw [chunks64_length (data ++ sha1_padding (prev + data.length)).length _ le_rfl]
    omega
  · exact chunks64_flatten (data ++ sha1_padding (prev + data.length)).length _ le_rfl

/-- Witness for C10 at `previous_length = 1` with empty data: the 63-byte
padding has no full block, so nothing is processed and the result is the
serialization of the initial state. -/
theorem sha1_extend_hash_misaligned_witness :
    (1 : Nat) % 64 ≠ 0 ∧
    (([] : List Nat).length + (sha1_padding (1 + ([] : List Nat).length)).length) % 64 ≠ 0 ∧
    64 * (chunks64 (([] : List Nat) ++ sha1_padding (1 + ([] : List Nat).length))).length
      < (([] : List Nat) ++ sha1_padding (1 + ([] : List Nat).length)).length ∧
    (chunks64 (([] : List Nat) ++ sha1_padding (1 + ([] : List Nat).length))).flatten
      = (([] : List Nat) ++ sha1_padding (1 + ([] : List Nat).length)).take
          (64 * (chunks64 (([] : List Nat) ++ sha1_padding (1 + ([] : List Nat).length))).length) ∧
    sha1_extend_hash (0, 0, 0, 0, 0) [] 1
      = pack5 (sha1_fold_blocks (0, 0, 0, 0, 0)
          (chunks64 (([] : List Nat) ++ sha1_padding (1 + ([] : List Nat).length)))) ∧
    (sha1_extend_hash (0, 0, 0, 0, 0) [] 1).length = 20 :=
  ⟨by decide, sha1_extend_hash_misaligned 0 0 0 0 0 [] 1 (by decide)⟩

/-- C1: the forged digest equals the digest of the reconstructed message.
For every secret `S`, known suffix `K` and appended bytes `A`, calling
`sha1_extend` with the hex digest of `S ++ K`, the suffix `K`, the bytes `A`
and assumed secret length `len S` yields a forged digest hex equal to the
hex digest of `S ++ K ++ pad(len S + len K) ++ A`. -/
theorem sha1_extend_round_trip (S K A : List Nat) :
    (sha1_extend (bytesToHexChars (sha1_digest (S ++ K))) K A S.length).map Prod.fst
      = some (bytesToHexChars
          (sha1_digest (S ++ K ++ sha1_padding (S.length + K.length) ++ A))) := by
  set st0 := sha1_fold_blocks sha1_IV
    (chunks64 ((S ++ K) ++ sha1_padding (S.length + K.length))) with hst0
  have hdig : sha1_digest (S ++ K) = pack5 st0 := by
    rw [sha1_digest, List.length_append, ← hst0]
  have hbounds := sha1_fold_blocks_lt
    (chunks64 ((S ++ K) ++ sha1_padding (S.length + K.length))) sha1_IV
    (by decide) (by decide) (by decide) (by decide) (by decide)
  rw [← hst0] at hbounds
  have hparse : parse_state (bytesToHexChars (sha1_digest (S ++ K))) = some st0 := by
    rw [hdig]
    exact parse_state_pack5 st0 hbounds.1 hbounds.2.1 hbounds.2.2.1 hbounds.2.2.2.1
      hbounds.2.2.2.2
  rw [sha1_extend, hparse]
  show some (bytesToHexChars (sha1_extend_hash st0 A
      (S.length + K.length + (sha1_padding (S.length + K.length)).length)))
    = some (bytesToHexChars
        (sha1_digest (S ++ K ++ sha1_padding (S.length + K.length) ++ A)))
  have hmain : sha1_extend_hash st0 A
      (S.length + K.length + (sha1_padding (S.length + K.length)).length)
      = sha1_digest (S ++ K ++ sha1_padding (S.length + K.length) ++ A) := by
    have hMlen : (S ++ K ++ sha1_padding (S.length + K.length) ++ A).length
        = S.length + K.length + (sha1_padding (S.length + K.length)).length + A.length := by
      simp only [List.length_append]
    rw [sha1_extend_hash, sha1_digest, hMlen]
    have hgrp : S ++ K ++ sha1_padding (S.length + K.length) ++ A
        ++ sha1_padding (S.length + K.length
          + (sha1_padding (S.length + K.length)).length + A.length)
        = ((S ++ K) ++ sha1_padding (S.length + K.length))
          ++ (A ++ sha1_padding (S.length + K.length
            + (sha1_padding (S.length + K.length)).length + A.length)) := by
      simp only [List.append_assoc]
    rw [hgrp]
    have hXmod : ((S ++ K) ++ sha1_padding (S.length + K.length)).length % 64 = 0 := by
      simp only [List.length_append]
      have := sha1_padding_length_mod (S.length + K.length)
      omega
    rw [chunks64_append ((S ++ K) ++ sha1_padding (S.length + K.length)).length _ _
      le_rfl hXmod]
    rw [sha1_fold_blocks_append, ← hst0]
  rw [hmain]

/-- Witness for C7: the empty block is rejected and the 64-byte zero block
is accepted. -/
theorem sha1_process_block_length_contract_witness :
    (sha1_process_block [] 0 0 0 0 0 = none ↔ ([] : List Nat).length ≠ 64) ∧
    sha1_process_block (List.replicate 64 0) 0 0 0 0 0
      = some (sha1_block_core (List.replicate 64 0) 0 0 0 0 0) :=
  ⟨(sha1_process_block_length_contract [] 0 0 0 0 0).1,
   (sha1_process_block_length_contract (List.replicate 64 0) 0 0 0 0 0).2 (by decide)⟩
